import Mathlib

/-!
Shallow embedding of the `graph` crate (`src/graph.rs`): a directed graph
stored as a live vertex list plus an adjacency list indexed by vertex id.

Rust panics (out-of-bounds indexing, failed assertions) are modelled by
`Option`: `none` means the operation aborts.  Machine integers (`usize`)
are modelled by `Nat`; the program only increments and indexes, so no
overflow wrap is reachable in the modelled behaviour.
-/

/-- `struct Vertex { id, pre, post }` from graph.rs. -/
structure Vertex where
  id : Nat
  pre : Option Nat
  post : Option Nat
deriving DecidableEq, Repr

/-- `struct AdjacencyList { vertices: Vec<Vec<usize>> }`. -/
structure AdjacencyList where
  vertices : List (List Nat)
deriving DecidableEq, Repr

/-- `struct Graph { name, next_id, vertices, adjacency_list }`. -/
structure Graph where
  name : String
  next_id : Nat
  vertices : List Vertex
  adjacency_list : AdjacencyList
deriving DecidableEq, Repr

/-- `AdjacencyList::new`. -/
def AdjacencyList.new : AdjacencyList := ⟨[]⟩

/-- `AdjacencyList::add_edge`: `self.vertices[*src].push(*dst)`; indexing
out of bounds panics, modelled as `none`. -/
def AdjacencyList.add_edge (a : AdjacencyList) (src dst : Nat) : Option AdjacencyList :=
  if h : src < a.vertices.length then
    some ⟨a.vertices.set src (a.vertices[src] ++ [dst])⟩
  else
    none

/-- `AdjacencyList::delete_vertex`: `self.vertices[*v] = vec![]`; indexing
out of bounds panics, modelled as `none`. -/
def AdjacencyList.delete_vertex (a : AdjacencyList) (v : Nat) : Option AdjacencyList :=
  if v < a.vertices.length then
    some ⟨a.vertices.set v []⟩
  else
    none

/-- `AdjacencyList::get_adjacent_vertices`: `&self.vertices[src]`; indexing
out of bounds panics, modelled as `none`. -/
def AdjacencyList.get_adjacent_vertices (a : AdjacencyList) (src : Nat) : Option (List Nat) :=
  a.vertices[src]?

/-- `Graph::new`. -/
def Graph.new : Graph :=
  ⟨"", 0, [], AdjacencyList.new⟩

/-- `Graph::add_vertex`: push a Vertex with id `next_id`, assert
`next_id == adjacency_list.vertices.len()`, push an empty slot, increment
`next_id`.  A failed assertion panics, modelled as `none`. -/
def Graph.add_vertex (g : Graph) : Option Graph :=
  if g.next_id = g.adjacency_list.vertices.length then
    some { name := g.name
           next_id := g.next_id + 1
           vertices := g.vertices ++ [⟨g.next_id, none, none⟩]
           adjacency_list := ⟨g.adjacency_list.vertices ++ [[]]⟩ }
  else
    none

/-- `Graph::add_edge`: delegates to `AdjacencyList::add_edge`. -/
def Graph.add_edge (g : Graph) (src dst : Nat) : Option Graph :=
  match g.adjacency_list.add_edge src dst with
  | some a => some { g with adjacency_list := a }
  | none => none

/-- `Graph::add_vertices(n)`: call `add_vertex` n times. -/
def Graph.add_vertices : Graph → Nat → Option Graph
  | g, 0 => some g
  | g, n + 1 =>
    match g.add_vertex with
    | some g2 => g2.add_vertices n
    | none => none

/-- `Graph::fully_connect`: for every pair of indices into the live vertex
list, add an edge between the corresponding vertex ids. -/
def Graph.fully_connect (g : Graph) : Option Graph :=
  g.vertices.foldlM
    (fun g1 v1 => g1.vertices.foldlM (fun g2 v2 => g2.add_edge v1.id v2.id) g1)
    g

/-- `Graph::count_vertices`: `self.vertices.len()`. -/
def Graph.count_vertices (g : Graph) : Nat :=
  g.vertices.length

/-- `Graph::count_edges`: sum of the neighbour-list lengths over all
adjacency slots. -/
def Graph.count_edges (g : Graph) : Nat :=
  g.adjacency_list.vertices.foldl (fun total v => total + v.length) 0

/-- `Graph::delete_vertex`: retain vertices with a different id, then
clear the adjacency slot (which panics when `v` is not a valid index). -/
def Graph.delete_vertex (g : Graph) (v : Nat) : Option Graph :=
  match g.adjacency_list.delete_vertex v with
  | some a => some { g with vertices := g.vertices.filter (fun element => element.id != v)
                            adjacency_list := a }
  | none => none

/-- `Graph::get_vertex`: linear scan of the live vertex list for a
matching id. -/
def Graph.get_vertex (g : Graph) (id : Nat) : Option Vertex :=
  g.vertices.find? (fun v => v.id == id)

/-- `Graph::get_adjacent_vertices`: delegates to the adjacency list. -/
def Graph.get_adjacent_vertices (g : Graph) (v : Nat) : Option (List Nat) :=
  g.adjacency_list.get_adjacent_vertices v

/-- A sequence of `add_edge` calls, one per `(src, dst)` pair, aborting at
the first panic. -/
def Graph.add_edge_seq (g : Graph) (l : List (Nat × Nat)) : Option Graph :=
  l.foldlM (fun gg p => gg.add_edge p.fst p.snd) g

/-- A sequence of `delete_vertex` calls, aborting at the first panic. -/
def Graph.delete_seq (g : Graph) (l : List Nat) : Option Graph :=
  l.foldlM Graph.delete_vertex g

/-- `Graph::count_vertices` as a state-passing computation, translated from
the method body (it only reads `self`). -/
def Graph.count_verticesM : StateM Graph Nat := do
  let g ← get
  pure g.vertices.length

/-- `Graph::count_edges` as a state-passing computation, translated from
the method body (a read-only loop over the adjacency slots). -/
def Graph.count_edgesM : StateM Graph Nat := do
  let g ← get
  pure (g.adjacency_list.vertices.foldl (fun total v => total + v.length) 0)

/-- `Graph::get_vertex` as a state-passing computation, translated from the
method body (a read-only linear scan). -/
def Graph.get_vertexM (id : Nat) : StateM Graph (Option Vertex) := do
  let g ← get
  pure (g.vertices.find? (fun v => v.id == id))

/-- `Graph::get_adjacent_vertices` as a state-passing computation,
translated from the method body (a read-only slot lookup). -/
def Graph.get_adjacent_verticesM (v : Nat) : StateM Graph (Option (List Nat)) := do
  let g ← get
  pure (g.adjacency_list.vertices[v]?)

/-- Graph states reachable from `Graph::new` by the public mutating
operations (queries do not change state). -/
inductive Reachable : Graph → Prop where
  | new : Reachable Graph.new
  | add_vertex {g g2 : Graph} :
      Reachable g → g.add_vertex = some g2 → Reachable g2
  | add_edge {g g2 : Graph} (s d : Nat) :
      Reachable g → g.add_edge s d = some g2 → Reachable g2
  | add_vertices {g g2 : Graph} (n : Nat) :
      Reachable g → g.add_vertices n = some g2 → Reachable g2
  | fully_connect {g g2 : Graph} :
      Reachable g → g.fully_connect = some g2 → Reachable g2
  | delete_vertex {g g2 : Graph} (v : Nat) :
      Reachable g → g.delete_vertex v = some g2 → Reachable g2

/-- The vertex created by the n-th `add_vertex` call. -/
def mkVertex (i : Nat) : Vertex := ⟨i, none, none⟩

/-- The graph obtained from `Graph::new()` by `add_vertices(n)`. -/
def mkGraph (n : Nat) : Graph :=
  ⟨"", n, (List.range n).map mkVertex, ⟨List.replicate n []⟩⟩

/-- Structural invariant maintained by the public operations: the id
counter equals the adjacency-list size, live ids are below the counter,
and live ids are pairwise distinct. -/
def GraphInv (g : Graph) : Prop :=
  g.next_id = g.adjacency_list.vertices.length ∧
  (∀ v ∈ g.vertices, v.id < g.next_id) ∧
  (g.vertices.map Vertex.id).Nodup

/-! ### Basic lemmas about `count_edges` and `add_edge` -/

theorem count_edges_eq_sum (g : Graph) :
    g.count_edges = (g.adjacency_list.vertices.map List.length).sum := by
  have h : ∀ (l : List (List Nat)) (a : Nat),
      l.foldl (fun total v => total + v.length) a = a + (l.map List.length).sum := by
    intro l
    induction l with
    | nil => intro a; simp
    | cons x xs ih => intro a; simp [ih, Nat.add_assoc]
  simpa [Graph.count_edges] using h g.adjacency_list.vertices 0

theorem sum_set_succ (l : List Nat) (s : Nat) (h : s < l.length) :
    (l.set s (l[s] + 1)).sum = l.sum + 1 := by
  induction l generalizing s with
  | nil => simp at h
  | cons x xs ih =>
    cases s with
    | zero => simp [List.sum_cons]; omega
    | succ n =>
      have hn : n < xs.length := by simpa using h
      simp [List.sum_cons, ih n hn]; omega

theorem sum_lengths_set_snoc (l : List (List Nat)) (s d : Nat) (h : s < l.length) :
    ((l.set s (l[s] ++ [d])).map List.length).sum = (l.map List.length).sum + 1 := by
  have h2 : s < (l.map List.length).length := by simpa using h
  have hs := sum_set_succ (l.map List.length) s h2
  simpa [List.map_set, List.getElem_map] using hs

theorem add_edge_eq_none_iff (g : Graph) (s d : Nat) :
    g.add_edge s d = none ↔ g.adjacency_list.vertices.length ≤ s := by
  rw [Graph.add_edge, AdjacencyList.add_edge]
  by_cases h : s < g.adjacency_list.vertices.length
  · simp [h]
  · simp [h]; omega

theorem add_edge_eq_some (g : Graph) (s d : Nat)
    (h : s < g.adjacency_list.vertices.length) :
    g.add_edge s d =
      some { g with adjacency_list :=
               ⟨g.adjacency_list.vertices.set s (g.adjacency_list.vertices[s] ++ [d])⟩ } := by
  rw [Graph.add_edge, AdjacencyList.add_edge, dif_pos h]

theorem add_edge_frame {g g2 : Graph} {s d : Nat} (h : g.add_edge s d = some g2) :
    g2.vertices = g.vertices ∧ g2.next_id = g.next_id ∧ g2.name = g.name ∧
      g2.adjacency_list.vertices.length = g.adjacency_list.vertices.length ∧
      g2.count_edges = g.count_edges + 1 := by
  by_cases hs : s < g.adjacency_list.vertices.length
  · rw [add_edge_eq_some g s d hs] at h
    cases h
    refine ⟨rfl, rfl, rfl, by simp, ?_⟩
    rw [count_edges_eq_sum, count_edges_eq_sum]
    exact sum_lengths_set_snoc _ s d hs
  · rw [Graph.add_edge, AdjacencyList.add_edge, dif_neg hs] at h
    cases h

theorem add_edge_slot {g g2 : Graph} {s d : Nat} (h : g.add_edge s d = some g2) :
    ∀ i, g2.adjacency_list.vertices[i]? =
      if i = s then (g.adjacency_list.vertices[i]?).map (fun l => l ++ [d])
      else g.adjacency_list.vertices[i]? := by
  intro i
  by_cases hs : s < g.adjacency_list.vertices.length
  · rw [add_edge_eq_some g s d hs] at h
    cases h
    by_cases hi : i = s
    · subst hi
      simp [List.getElem?_set_self hs, List.getElem?_eq_getElem hs]
    · simp [List.getElem?_set_ne (fun he => hi he.symm), hi]
  · rw [Graph.add_edge, AdjacencyList.add_edge, dif_neg hs] at h
    cases h

/-! ### The nested `fully_connect` folds -/

theorem foldlM_add_edge_inner (l : List Vertex) (g : Graph) (i : Nat)
    (hi : i < g.adjacency_list.vertices.length) :
    ∃ g2, l.foldlM (fun gg v => gg.add_edge i v.id) g = some g2 ∧
      g2.vertices = g.vertices ∧ g2.next_id = g.next_id ∧ g2.name = g.name ∧
      g2.adjacency_list.vertices.length = g.adjacency_list.vertices.length ∧
      g2.count_edges = g.count_edges + l.length := by
  induction l generalizing g with
  | nil => exact ⟨g, by simp [List.foldlM_nil], rfl, rfl, rfl, rfl, rfl⟩
  | cons v vs ih =>
    obtain ⟨g1, hg1⟩ :
        ∃ g1, g.add_edge i v.id = some g1 :=
      ⟨_, add_edge_eq_some g i v.id hi⟩
    obtain ⟨hv, hn, hm, hl, hc⟩ := add_edge_frame hg1
    obtain ⟨g2, hfold, h1, h2, h3, h4, h5⟩ := ih g1 (hl ▸ hi)
    refine ⟨g2, ?_, by rw [h1, hv], by rw [h2, hn], by rw [h3, hm],
      by rw [h4, hl], by rw [h5, hc, List.length_cons]; omega⟩
    rw [List.foldlM_cons, hg1]
    simpa using hfold

theorem foldlM_add_edge_outer (l : List Vertex) (g : Graph)
    (hl : ∀ v ∈ l, v.id < g.adjacency_list.vertices.length) :
    ∃ g2,
      l.foldlM
        (fun g1 v1 => g1.vertices.foldlM (fun g2 v2 => g2.add_edge v1.id v2.id) g1)
        g = some g2 ∧
      g2.vertices = g.vertices ∧ g2.next_id = g.next_id ∧ g2.name = g.name ∧
      g2.adjacency_list.vertices.length = g.adjacency_list.vertices.length ∧
      g2.count_edges = g.count_edges + l.length * g.vertices.length := by
  induction l generalizing g with
  | nil => exact ⟨g, by simp [List.foldlM_nil], rfl, rfl, rfl, rfl, by simp⟩
  | cons v vs ih =>
    obtain ⟨g1, hfold1, h1, h2, h3, h4, h5⟩ :=
      foldlM_add_edge_inner g.vertices g v.id (hl v (by simp))
    have hl1 : ∀ w ∈ vs, w.id < g1.adjacency_list.vertices.length := by
      intro w hw; rw [h4]; exact hl w (by simp [hw])
    obtain ⟨g2, hfold2, k1, k2, k3, k4, k5⟩ := ih g1 hl1
    refine ⟨g2, ?_, by rw [k1, h1], by rw [k2, h2], by rw [k3, h3],
      by rw [k4, h4], ?_⟩
    · rw [List.foldlM_cons, hfold1]
      simpa using hfold2
    · rw [k5, h5, h1, List.length_cons]
      ring

theorem fully_connect_spec (g : Graph)
    (hl : ∀ v ∈ g.vertices, v.id < g.adjacency_list.vertices.length) :
    ∃ g2, g.fully_connect = some g2 ∧
      g2.vertices = g.vertices ∧ g2.next_id = g.next_id ∧ g2.name = g.name ∧
      g2.adjacency_list.vertices.length = g.adjacency_list.vertices.length ∧
      g2.count_edges = g.count_edges + g.vertices.length * g.vertices.length := by
  simpa [Graph.fully_connect] using foldlM_add_edge_outer g.vertices g hl

/-! ### `add_vertex`, `add_vertices`, `delete_vertex` characterisations -/

theorem add_vertex_eq_some (g : Graph)
    (h : g.next_id = g.adjacency_list.vertices.length) :
    g.add_vertex = some
      { name := g.name
        next_id := g.next_id + 1
        vertices := g.vertices ++ [⟨g.next_id, none, none⟩]
        adjacency_list := ⟨g.adjacency_list.vertices ++ [[]]⟩ } := by
  rw [Graph.add_vertex, if_pos h]

theorem add_vertices_succ (g : Graph) (n : Nat) :
    g.add_vertices (n + 1) = g.add_vertex.bind (fun g2 => g2.add_vertices n) := by
  cases hv : g.add_vertex <;> simp [Graph.add_vertices, hv]

theorem add_vertices_succ_back (g : Graph) (n : Nat) :
    g.add_vertices (n + 1) = (g.add_vertices n).bind Graph.add_vertex := by
  induction n generalizing g with
  | zero =>
    rw [add_vertices_succ]
    cases hv : g.add_vertex <;> simp [hv, Graph.add_vertices]
  | succ n ih =>
    rw [add_vertices_succ, add_vertices_succ g n]
    cases hv : g.add_vertex with
    | none => simp
    | some g1 => simp [ih g1]

theorem delete_vertex_eq_some (g : Graph) (v : Nat)
    (h : v < g.adjacency_list.vertices.length) :
    g.delete_vertex v =
      some { g with vertices := g.vertices.filter (fun element => element.id != v)
                    adjacency_list := ⟨g.adjacency_list.vertices.set v []⟩ } := by
  rw [Graph.delete_vertex, AdjacencyList.delete_vertex, if_pos h]

theorem delete_vertex_eq_none_iff (g : Graph) (v : Nat) :
    g.delete_vertex v = none ↔ g.adjacency_list.vertices.length ≤ v := by
  rw [Graph.delete_vertex, AdjacencyList.delete_vertex]
  by_cases h : v < g.adjacency_list.vertices.length
  · simp [h]
  · simp [h]
    omega

/-! ### The state after `Graph::new().add_vertices(n)` -/

theorem mkGraph_next_id_len (n : Nat) :
    (mkGraph n).next_id = (mkGraph n).adjacency_list.vertices.length := by
  simp [mkGraph]

theorem mkGraph_add_vertex (n : Nat) :
    (mkGraph n).add_vertex = some (mkGraph (n + 1)) := by
  rw [add_vertex_eq_some _ (mkGraph_next_id_len n)]
  simp [mkGraph, mkVertex, List.range_succ, List.replicate_succ']

theorem new_add_vertices (n : Nat) :
    Graph.new.add_vertices n = some (mkGraph n) := by
  induction n with
  | zero => rfl
  | succ n ih =>
    rw [add_vertices_succ_back, ih]
    exact mkGraph_add_vertex n

theorem mkGraph_ids (n : Nat) : (mkGraph n).vertices.map Vertex.id = List.range n := by
  have h : Vertex.id ∘ mkVertex = id := funext fun i => rfl
  simp only [mkGraph, List.map_map, h, List.map_id]

theorem mkGraph_inv (n : Nat) : GraphInv (mkGraph n) := by
  refine ⟨mkGraph_next_id_len n, ?_, ?_⟩
  · intro v hv
    simp [mkGraph, mkVertex] at hv
    obtain ⟨i, hi, rfl⟩ := hv
    simpa [mkGraph] using hi
  · rw [mkGraph_ids]
    exact List.nodup_range n

theorem mkGraph_count_edges (n : Nat) : (mkGraph n).count_edges = 0 := by
  rw [count_edges_eq_sum]
  simp [mkGraph]

/-! ### Invariant preservation and reachability -/

theorem inv_add_vertex {g g2 : Graph} (hinv : GraphInv g)
    (h : g.add_vertex = some g2) : GraphInv g2 := by
  obtain ⟨h1, h2, h3⟩ := hinv
  rw [add_vertex_eq_some g h1] at h
  cases h
  refine ⟨by simp [h1], ?_, ?_⟩
  · intro v hv
    simp at hv
    rcases hv with hv | rfl
    · exact Nat.lt_succ_of_lt (h2 v hv)
    · exact Nat.lt_succ_self _
  · rw [List.map_append]
    refine List.Nodup.append h3 (by simp) ?_
    intro a ha hb
    simp at hb
    simp [List.mem_map] at ha
    obtain ⟨v, hv, rfl⟩ := ha
    exact absurd hb (Nat.ne_of_lt (h2 v hv))

theorem inv_add_edge {g g2 : Graph} {s d : Nat} (hinv : GraphInv g)
    (h : g.add_edge s d = some g2) : GraphInv g2 := by
  obtain ⟨h1, h2, h3⟩ := hinv
  obtain ⟨a1, a2, _, a4, _⟩ := add_edge_frame h
  exact ⟨by rw [a2, a4, h1], by rw [a1, a2]; exact h2, by rw [a1]; exact h3⟩

theorem inv_delete_vertex {g g2 : Graph} {v : Nat} (hinv : GraphInv g)
    (h : g.delete_vertex v = some g2) : GraphInv g2 := by
  obtain ⟨h1, h2, h3⟩ := hinv
  by_cases hv : v < g.adjacency_list.vertices.length
  · rw [delete_vertex_eq_some g v hv] at h
    cases h
    refine ⟨by simp [h1], ?_, ?_⟩
    · intro w hw
      exact h2 w (List.mem_of_mem_filter hw)
    · exact List.Nodup.sublist (List.Sublist.map _ (List.filter_sublist _)) h3
  · rw [Graph.delete_vertex, AdjacencyList.delete_vertex, if_neg hv] at h
    cases h

theorem inv_add_vertices {n : Nat} :
    ∀ {g g2 : Graph}, GraphInv g → g.add_vertices n = some g2 → GraphInv g2 := by
  induction n with
  | zero =>
    intro g g2 hinv h
    simp [Graph.add_vertices] at h
    exact h ▸ hinv
  | succ n ih =>
    intro g g2 hinv h
    simp only [Graph.add_vertices] at h
    cases hv : g.add_vertex with
    | none => rw [hv] at h; cases h
    | some g1 =>
      rw [hv] at h
      exact ih (inv_add_vertex hinv hv) h

theorem foldlM_add_edge_inner_frame {l : List Vertex} {i : Nat} :
    ∀ {g g2 : Graph}, l.foldlM (fun gg v => gg.add_edge i v.id) g = some g2 →
      g2.vertices = g.vertices ∧ g2.next_id = g.next_id ∧
        g2.adjacency_list.vertices.length = g.adjacency_list.vertices.length := by
  induction l with
  | nil =>
    intro g g2 h
    simp [List.foldlM_nil] at h
    subst h
    exact ⟨rfl, rfl, rfl⟩
  | cons v vs ih =>
    intro g g2 h
    rw [List.foldlM_cons] at h
    cases hv : g.add_edge i v.id with
    | none => rw [hv] at h; simp at h
    | some g1 =>
      rw [hv] at h
      simp only [Option.bind_eq_bind, Option.some_bind] at h
      obtain ⟨a1, a2, _, a4, _⟩ := add_edge_frame hv
      obtain ⟨b1, b2, b3⟩ := ih h
      exact ⟨b1.trans a1, b2.trans a2, b3.trans a4⟩

theorem foldlM_add_edge_outer_frame {l : List Vertex} :
    ∀ {g g2 : Graph},
      l.foldlM
        (fun g1 v1 => g1.vertices.foldlM (fun gg v2 => gg.add_edge v1.id v2.id) g1)
        g = some g2 →
      g2.vertices = g.vertices ∧ g2.next_id = g.next_id ∧
        g2.adjacency_list.vertices.length = g.adjacency_list.vertices.length := by
  induction l with
  | nil =>
    intro g g2 h
    simp [List.foldlM_nil] at h
    subst h
    exact ⟨rfl, rfl, rfl⟩
  | cons v vs ih =>
    intro g g2 h
    rw [List.foldlM_cons] at h
    cases hv : g.vertices.foldlM (fun gg v2 => gg.add_edge v.id v2.id) g with
    | none => rw [hv] at h; simp at h
    | some g1 =>
      rw [hv] at h
      simp only [Option.bind_eq_bind, Option.some_bind] at h
      obtain ⟨a1, a2, a3⟩ := foldlM_add_edge_inner_frame hv
      obtain ⟨b1, b2, b3⟩ := ih h
      exact ⟨b1.trans a1, b2.trans a2, b3.trans a3⟩

theorem fully_connect_frame {g g2 : Graph} (h : g.fully_connect = some g2) :
    g2.vertices = g.vertices ∧ g2.next_id = g.next_id ∧
      g2.adjacency_list.vertices.length = g.adjacency_list.vertices.length := by
  rw [Graph.fully_connect] at h
  exact foldlM_add_edge_outer_frame h

theorem inv_fully_connect {g g2 : Graph} (hinv : GraphInv g)
    (h : g.fully_connect = some g2) : GraphInv g2 := by
  obtain ⟨h1, h2, h3⟩ := hinv
  obtain ⟨a1, a2, a3⟩ := fully_connect_frame h
  exact ⟨by rw [a2, a3, h1], by rw [a1, a2]; exact h2, by rw [a1]; exact h3⟩

theorem inv_new : GraphInv Graph.new := by
  refine ⟨rfl, ?_, ?_⟩
  · intro v hv
    cases hv
  · simp [Graph.new]

theorem reachable_inv {g : Graph} (h : Reachable g) : GraphInv g := by
  induction h with
  | new => exact inv_new
  | add_vertex _ heq ih => exact inv_add_vertex ih heq
  | add_edge s d _ heq ih => exact inv_add_edge ih heq
  | add_vertices n _ heq ih => exact inv_add_vertices ih heq
  | fully_connect _ heq ih => exact inv_fully_connect ih heq
  | delete_vertex v _ heq ih => exact inv_delete_vertex ih heq

/-! ### Sequences of deletions -/

theorem length_filter_ne_of_mem {l : List Vertex} {d : Nat}
    (hvd : (l.map Vertex.id).Nodup) (hmem : ∃ v ∈ l, v.id = d) :
    (l.filter (fun element => element.id != d)).length + 1 = l.length := by
  induction l with
  | nil => simp at hmem
  | cons x xs ih =>
    rw [List.map_cons, List.nodup_cons] at hvd
    by_cases hx : x.id = d
    · have hxs : xs.filter (fun element => element.id != d) = xs := by
        refine List.filter_eq_self.mpr ?_
        intro v hv
        have : v.id ≠ d := by
          intro hvd2
          exact hvd.1 (hx ▸ hvd2 ▸ List.mem_map_of_mem Vertex.id hv)
        simpa using this
      simp [List.filter_cons, hx, hxs]
    · have hmem2 : ∃ v ∈ xs, v.id = d := by
        rcases hmem with ⟨v, hv, hvd2⟩
        rcases List.mem_cons.mp hv with rfl | hv2
        · exact absurd hvd2 hx
        · exact ⟨v, hv2, hvd2⟩
      have hrec := ih hvd.2 hmem2
      simp [List.filter_cons, hx]
      omega

theorem delete_seq_spec {ds : List Nat} :
    ∀ {g : Graph},
      (∀ v ∈ g.vertices, v.id < g.adjacency_list.vertices.length) →
      (g.vertices.map Vertex.id).Nodup →
      ds.Nodup →
      (∀ d ∈ ds, ∃ v ∈ g.vertices, v.id = d) →
      ∃ g2, g.delete_seq ds = some g2 ∧
        g2.count_vertices + ds.length = g.count_vertices ∧
        g2.next_id = g.next_id ∧ g2.name = g.name ∧
        g2.adjacency_list.vertices.length = g.adjacency_list.vertices.length ∧
        (∀ d ∈ ds, g2.adjacency_list.vertices[d]? = some []) ∧
        (∀ i, i ∉ ds → g2.adjacency_list.vertices[i]? = g.adjacency_list.vertices[i]?) ∧
        (∀ v ∈ g.vertices, v.id ∉ ds → v ∈ g2.vertices) := by
  induction ds with
  | nil =>
    intro g _ _ _ _
    exact ⟨g, by simp [Graph.delete_seq, List.foldlM_nil], by simp [List.length_nil],
      rfl, rfl, rfl, by simp, fun i _ => rfl, fun v hv _ => hv⟩
  | cons d ds ih =>
    intro g hb hvd hnd hlive
    have hdlive : ∃ v ∈ g.vertices, v.id = d := hlive d (List.mem_cons_self d ds)
    have hdlt : d < g.adjacency_list.vertices.length := by
      obtain ⟨v, hv, rfl⟩ := hdlive
      exact hb v hv
    have hdel := delete_vertex_eq_some g d hdlt
    set g1 : Graph :=
      { g with vertices := g.vertices.filter (fun element => element.id != d)
               adjacency_list := ⟨g.adjacency_list.vertices.set d []⟩ } with hg1
    have hd_notin : d ∉ ds := (List.nodup_cons.mp hnd).1
    have hb1 : ∀ v ∈ g1.vertices, v.id < g1.adjacency_list.vertices.length := by
      intro v hv
      simp only [hg1, List.length_set]
      exact hb v (List.mem_of_mem_filter hv)
    have hvd1 : (g1.vertices.map Vertex.id).Nodup :=
      List.Nodup.sublist (List.Sublist.map _ (List.filter_sublist _)) hvd
    have hnd1 : ds.Nodup := (List.nodup_cons.mp hnd).2
    have hlive1 : ∀ e ∈ ds, ∃ v ∈ g1.vertices, v.id = e := by
      intro e he
      obtain ⟨v, hv, rfl⟩ := hlive e (List.mem_cons_of_mem d he)
      refine ⟨v, ?_, rfl⟩
      simp only [hg1]
      refine List.mem_filter.mpr ⟨hv, ?_⟩
      have : v.id ≠ d := fun hvd2 => hd_notin (hvd2 ▸ he)
      simpa using this
    obtain ⟨g2, hfold, hcount, hnid, hname, hlen, hslots, hunch, hmem⟩ :=
      ih hb1 hvd1 hnd1 hlive1
    refine ⟨g2, ?_, ?_, ?_, ?_, ?_, ?_, ?_, ?_⟩
    · rw [Graph.delete_seq, List.foldlM_cons, hdel]
      simpa [Graph.delete_seq] using hfold
    · have hstep := length_filter_ne_of_mem hvd hdlive
      have : g1.count_vertices + 1 = g.count_vertices := by
        simpa [hg1, Graph.count_vertices] using hstep
      simp only [List.length_cons]
      omega
    · exact hnid
    · exact hname
    · rw [hlen]
      simp [hg1]
    · intro e he
      rcases List.mem_cons.mp he with rfl | he2
      · rw [hunch e hd_notin]
        simp only [hg1]
        exact List.getElem?_set_self hdlt
      · exact hslots e he2
    · intro i hi
      have hi1 : i ∉ ds := fun h2 => hi (List.mem_cons_of_mem d h2)
      have hi2 : i ≠ d := fun h2 => hi (h2 ▸ List.mem_cons_self d ds)
      rw [hunch i hi1]
      simp only [hg1]
      exact List.getElem?_set_ne (fun he => hi2 he.symm)
    · intro v hv hvn
      have hvn1 : v.id ∉ ds := fun h2 => hvn (List.mem_cons_of_mem d h2)
      have hvn2 : v.id ≠ d := fun h2 => hvn (h2 ▸ List.mem_cons_self d ds)
      refine hmem v ?_ hvn1
      simp only [hg1]
      exact List.mem_filter.mpr ⟨hv, by simpa using hvn2⟩

/-! ### Sequences of edge insertions -/

theorem add_edge_seq_spec {l : List (Nat × Nat)} :
    ∀ {g : Graph}, (∀ p ∈ l, p.fst < g.adjacency_list.vertices.length) →
      ∃ g2, g.add_edge_seq l = some g2 ∧
        g2.vertices = g.vertices ∧ g2.next_id = g.next_id ∧ g2.name = g.name ∧
        g2.adjacency_list.vertices.length = g.adjacency_list.vertices.length ∧
        ∀ i, g2.adjacency_list.vertices[i]? =
          (g.adjacency_list.vertices[i]?).map
            (fun a => a ++ (l.filter (fun p => p.fst == i)).map Prod.snd) := by
  induction l with
  | nil =>
    intro g _
    refine ⟨g, by simp [Graph.add_edge_seq, List.foldlM_nil], rfl, rfl, rfl, rfl, ?_⟩
    intro i
    cases g.adjacency_list.vertices[i]? <;> simp
  | cons p l ih =>
    intro g hs
    have hp : p.fst < g.adjacency_list.vertices.length := hs p (List.mem_cons_self p l)
    have hadd := add_edge_eq_some g p.fst p.snd hp
    set g1 : Graph :=
      { g with adjacency_list :=
          ⟨g.adjacency_list.vertices.set p.fst
            (g.adjacency_list.vertices[p.fst] ++ [p.snd])⟩ } with hg1
    have hslot1 : ∀ i, g1.adjacency_list.vertices[i]? =
        if i = p.fst then (g.adjacency_list.vertices[i]?).map (fun a => a ++ [p.snd])
        else g.adjacency_list.vertices[i]? := add_edge_slot hadd
    have hs1 : ∀ q ∈ l, q.fst < g1.adjacency_list.vertices.length := by
      intro q hq
      simp only [hg1, List.length_set]
      exact hs q (List.mem_cons_of_mem p hq)
    obtain ⟨g2, hfold, hvert, hnid, hname, hlen, hslots⟩ := ih hs1
    refine ⟨g2, ?_, hvert, hnid, hname, by rw [hlen]; simp [hg1], ?_⟩
    · rw [Graph.add_edge_seq, List.foldlM_cons, hadd]
      simpa [Graph.add_edge_seq] using hfold
    · intro i
      rw [hslots i, hslot1 i]
      by_cases hi : i = p.fst
      · subst hi
        rw [if_pos rfl, Option.map_map]
        cases g.adjacency_list.vertices[p.fst]? with
        | none => simp
        | some a => simp [List.filter_cons, Function.comp, List.append_assoc]
      · rw [if_neg hi]
        have hne : (p.fst == i) = false := beq_eq_false_iff_ne.mpr (fun he => hi he.symm)
        simp [List.filter_cons, hne]

/-! ### `get_vertex` on the freshly built graph -/

theorem find_mkVertex_none (n i : Nat) (h : n ≤ i) :
    ((List.range n).map mkVertex).find? (fun v => v.id == i) = none := by
  induction n with
  | zero => simp
  | succ n ih =>
    have hne : (n == i) = false := by
      simp
      omega
    rw [List.range_succ, List.map_append, List.find?_append, ih (Nat.le_of_succ_le h)]
    simp [mkVertex, hne]

theorem find_mkVertex_some (n i : Nat) (h : i < n) :
    ((List.range n).map mkVertex).find? (fun v => v.id == i) = some (mkVertex i) := by
  induction n with
  | zero => omega
  | succ n ih =>
    rw [List.range_succ, List.map_append, List.find?_append]
    by_cases hi : i < n
    · rw [ih hi]
      simp
    · have hin : i = n := by omega
      subst hin
      rw [find_mkVertex_none i i (Nat.le_refl i)]
      simp [mkVertex]

theorem mkGraph_get_vertex_lt (n i : Nat) (h : i < n) :
    (mkGraph n).get_vertex i = some (mkVertex i) := by
  rw [Graph.get_vertex]
  exact find_mkVertex_some n i h

theorem mkGraph_get_vertex_ge (n i : Nat) (h : n ≤ i) :
    (mkGraph n).get_vertex i = none := by
  rw [Graph.get_vertex]
  exact find_mkVertex_none n i h

theorem set_of_getElem?_eq {α : Type} {l : List α} {i : Nat} {a : α}
    (h : l[i]? = some a) : l.set i a = l := by
  induction l generalizing i with
  | nil => simp at h
  | cons x xs ih =>
    cases i with
    | zero =>
      simp at h
      simp [h]
    | succ n =>
      simp at h
      simp [List.set_cons_succ, ih h]

/-! ## Claims -/

/-- C1: for every n ≥ 0, starting from a new Graph, `add_vertices(n)` followed by
`fully_connect()` succeeds, `count_vertices()` returns n and `count_edges()`
returns n², one edge per ordered pair of live vertices including self-loops. -/
theorem full_connection_square (n : Nat) :
    ∃ g, (Graph.new.add_vertices n).bind Graph.fully_connect = some g ∧
      g.count_vertices = n ∧ g.count_edges = n ^ 2 := by
  obtain ⟨hinv1, hinv2, _⟩ := mkGraph_inv n
  have hb : ∀ v ∈ (mkGraph n).vertices,
      v.id < (mkGraph n).adjacency_list.vertices.length := by
    intro v hv
    rw [← hinv1]
    exact hinv2 v hv
  obtain ⟨g2, hfc, hvert, _, _, _, hcount⟩ := fully_connect_spec (mkGraph n) hb
  have hlen : (mkGraph n).vertices.length = n := by simp [mkGraph]
  refine ⟨g2, ?_, ?_, ?_⟩
  · rw [new_add_vertices n, Option.some_bind]
    exact hfc
  · rw [Graph.count_vertices, hvert, hlen]
  · rw [hcount, mkGraph_count_edges, hlen]
    ring

/-- C7: for every n ≥ 0, `add_vertices(n)` from a new Graph succeeds,
`count_vertices()` returns n, every id in [0, n) is live exactly once
(`get_vertex` returns the unique vertex with that id, and live ids are
pairwise distinct), and `get_vertex` returns `None` for every id ≥ n. -/
theorem add_vertices_live_ids (n : Nat) :
    ∃ g, Graph.new.add_vertices n = some g ∧
      g.count_vertices = n ∧
      (∀ i, i < n → g.get_vertex i = some (mkVertex i)) ∧
      (∀ i, n ≤ i → g.get_vertex i = none) ∧
      (g.vertices.map Vertex.id).Nodup := by
  refine ⟨mkGraph n, new_add_vertices n, by simp [Graph.count_vertices, mkGraph], ?_, ?_, ?_⟩
  · intro i hi
    exact mkGraph_get_vertex_lt n i hi
  · intro i hi
    exact mkGraph_get_vertex_ge n i hi
  · rw [mkGraph_ids]
    exact List.nodup_range n

/-- C5: on every reachable graph state, `add_vertex()` succeeds (the internal
assertion cannot fire), appends a Vertex with id `next_id`, appends one empty
adjacency slot, increments `next_id`, and grows both lists by one. -/
theorem add_vertex_total_on_reachable (g : Graph) (h : Reachable g) :
    ∃ g2, g.add_vertex = some g2 ∧
      g2.vertices = g.vertices ++ [⟨g.next_id, none, none⟩] ∧
      g2.adjacency_list.vertices = g.adjacency_list.vertices ++ [[]] ∧
      g2.next_id = g.next_id + 1 ∧
      g2.vertices.length = g.vertices.length + 1 ∧
      g2.adjacency_list.vertices.length = g.adjacency_list.vertices.length + 1 := by
  obtain ⟨h1, _, _⟩ := reachable_inv h
  rw [add_vertex_eq_some g h1]
  exact ⟨_, rfl, rfl, rfl, rfl, by simp, by simp⟩

/-- Witness for C5 at the concrete reachable state `Graph.new`. -/
theorem add_vertex_total_on_reachable_witness :
    ∃ g2, Graph.new.add_vertex = some g2 ∧
      g2.vertices = Graph.new.vertices ++ [⟨Graph.new.next_id, none, none⟩] ∧
      g2.adjacency_list.vertices = Graph.new.adjacency_list.vertices ++ [[]] ∧
      g2.next_id = Graph.new.next_id + 1 ∧
      g2.vertices.length = Graph.new.vertices.length + 1 ∧
      g2.adjacency_list.vertices.length =
        Graph.new.adjacency_list.vertices.length + 1 :=
  add_vertex_total_on_reachable Graph.new Reachable.new

/-- C4: when `next_id` matches the adjacency-list size (true of every state the
program builds), `add_edge(src, dst)` panics exactly when `src ≥ next_id`; for
`src < next_id` it succeeds for every `dst` whatsoever, appending `dst` to
slot `src` and leaving everything else unchanged; and `get_adjacent_vertices(v)`
panics exactly when `v ≥ next_id`. -/
theorem add_edge_bounds (g : Graph)
    (hni : g.next_id = g.adjacency_list.vertices.length) :
    (∀ s d, g.add_edge s d = none ↔ g.next_id ≤ s) ∧
    (∀ s d, s < g.next_id →
      ∃ g2, g.add_edge s d = some g2 ∧
        g2.get_adjacent_vertices s =
          (g.get_adjacent_vertices s).map (fun a => a ++ [d]) ∧
        (∀ i, i ≠ s → g2.get_adjacent_vertices i = g.get_adjacent_vertices i) ∧
        g2.vertices = g.vertices ∧ g2.next_id = g.next_id) ∧
    (∀ v, g.get_adjacent_vertices v = none ↔ g.next_id ≤ v) := by
  refine ⟨?_, ?_, ?_⟩
  · intro s d
    rw [add_edge_eq_none_iff, hni]
  · intro s d hs
    have hlt : s < g.adjacency_list.vertices.length := hni ▸ hs
    have hadd := add_edge_eq_some g s d hlt
    have hslot := add_edge_slot hadd
    obtain ⟨a1, a2, _, _, _⟩ := add_edge_frame hadd
    refine ⟨_, hadd, ?_, ?_, a1, a2⟩
    · have := hslot s
      rw [if_pos rfl] at this
      simpa [Graph.get_adjacent_vertices, AdjacencyList.get_adjacent_vertices] using this
    · intro i hi
      have := hslot i
      rw [if_neg hi] at this
      simpa [Graph.get_adjacent_vertices, AdjacencyList.get_adjacent_vertices] using this
  · intro v
    rw [Graph.get_adjacent_vertices, AdjacencyList.get_adjacent_vertices,
      List.getElem?_eq_none_iff, hni]

/-- Witness for C4 at the concrete one-vertex graph. -/
theorem add_edge_bounds_witness :
    (mkGraph 1).next_id = (mkGraph 1).adjacency_list.vertices.length ∧
    ((∀ s d, (mkGraph 1).add_edge s d = none ↔ (mkGraph 1).next_id ≤ s) ∧
      (∀ s d, s < (mkGraph 1).next_id →
        ∃ g2, (mkGraph 1).add_edge s d = some g2 ∧
          g2.get_adjacent_vertices s =
            ((mkGraph 1).get_adjacent_vertices s).map (fun a => a ++ [d]) ∧
          (∀ i, i ≠ s →
            g2.get_adjacent_vertices i = (mkGraph 1).get_adjacent_vertices i) ∧
          g2.vertices = (mkGraph 1).vertices ∧ g2.next_id = (mkGraph 1).next_id) ∧
      (∀ v, (mkGraph 1).get_adjacent_vertices v = none ↔ (mkGraph 1).next_id ≤ v)) :=
  ⟨mkGraph_next_id_len 1, add_edge_bounds (mkGraph 1) (mkGraph_next_id_len 1)⟩

/-- C3 counterexample: id 0 is not live in `Graph::new()` (no vertex exists at
all), yet `delete_vertex(0)` is not a silent no-op — it panics on the
out-of-bounds adjacency index, modelled as `none`. -/
theorem delete_vertex_unissued_panics :
    (∀ v ∈ Graph.new.vertices, v.id ≠ 0) ∧ Graph.new.delete_vertex 0 = none := by
  constructor
  · intro v hv
    cases hv
  · rfl

/-- C3 amended: for every id `v < next_id` that is not currently live (with
`next_id` matching the adjacency-list size, as in every state the program
builds), `delete_vertex(v)` returns normally, leaves the live vertex set,
`next_id` and `name` unchanged, and re-clears adjacency slot `v`; when that
slot is already empty the whole graph state is unchanged.  Ids `v ≥ next_id`
instead abort on the adjacency index. -/
theorem delete_vertex_nonlive_issued (g : Graph) (v : Nat)
    (hni : g.next_id = g.adjacency_list.vertices.length)
    (hlt : v < g.next_id)
    (hnl : ∀ u ∈ g.vertices, u.id ≠ v) :
    ∃ g2, g.delete_vertex v = some g2 ∧
      g2.vertices = g.vertices ∧ g2.next_id = g.next_id ∧ g2.name = g.name ∧
      g2.adjacency_list.vertices = g.adjacency_list.vertices.set v [] ∧
      (g.adjacency_list.vertices[v]? = some [] → g2 = g) := by
  have hlt2 : v < g.adjacency_list.vertices.length := hni ▸ hlt
  rw [delete_vertex_eq_some g v hlt2]
  have hfid : g.vertices.filter (fun element => element.id != v) = g.vertices := by
    refine List.filter_eq_self.mpr ?_
    intro u hu
    simpa using hnl u hu
  refine ⟨_, rfl, hfid, rfl, rfl, rfl, ?_⟩
  intro hslot
  have hset : g.adjacency_list.vertices.set v [] = g.adjacency_list.vertices :=
    set_of_getElem?_eq hslot
  cases g with
  | mk nm ni vs adj =>
    cases adj with
    | mk slots =>
      simp only at hfid hset
      simp [hfid, hset]

/-- Witness for the amended C3: a state with one issued, deleted id whose slot
is empty; deleting it again succeeds and changes nothing. -/
theorem delete_vertex_nonlive_issued_witness :
    (⟨"", 1, [], ⟨[[]]⟩⟩ : Graph).next_id =
        (⟨"", 1, [], ⟨[[]]⟩⟩ : Graph).adjacency_list.vertices.length ∧
    0 < (⟨"", 1, [], ⟨[[]]⟩⟩ : Graph).next_id ∧
    (∀ u ∈ (⟨"", 1, [], ⟨[[]]⟩⟩ : Graph).vertices, u.id ≠ 0) ∧
    ∃ g2, (⟨"", 1, [], ⟨[[]]⟩⟩ : Graph).delete_vertex 0 = some g2 ∧
      g2.vertices = (⟨"", 1, [], ⟨[[]]⟩⟩ : Graph).vertices ∧
      g2.next_id = (⟨"", 1, [], ⟨[[]]⟩⟩ : Graph).next_id ∧
      g2.name = (⟨"", 1, [], ⟨[[]]⟩⟩ : Graph).name ∧
      g2.adjacency_list.vertices =
        (⟨"", 1, [], ⟨[[]]⟩⟩ : Graph).adjacency_list.vertices.set 0 [] ∧
      ((⟨"", 1, [], ⟨[[]]⟩⟩ : Graph).adjacency_list.vertices[0]? = some [] →
        g2 = (⟨"", 1, [], ⟨[[]]⟩⟩ : Graph)) :=
  ⟨rfl, by decide, by decide,
    delete_vertex_nonlive_issued ⟨"", 1, [], ⟨[[]]⟩⟩ 0 rfl (by decide) (by decide)⟩

/-- A reachable state (new; add_vertex; delete_vertex 0; add_edge 0 0) in which
the deleted id 0 has a non-empty adjacency slot. -/
def gDangling : Graph := ⟨"", 1, [], ⟨[[0]]⟩⟩

/-- C8 counterexample: in the reachable state `gDangling` the deleted id 0 is
below `next_id` but its adjacency slot is `[0]`, not empty — a public
`add_edge` with a deleted source repopulates the cleared slot. -/
theorem deleted_slot_not_empty :
    Reachable gDangling ∧
      0 < gDangling.next_id ∧
      (∀ v ∈ gDangling.vertices, v.id ≠ 0) ∧
      gDangling.adjacency_list.vertices[0]? ≠ some [] := by
  have r1 : Reachable (⟨"", 1, [⟨0, none, none⟩], ⟨[[]]⟩⟩ : Graph) :=
    Reachable.add_vertex Reachable.new rfl
  have r2 : Reachable (⟨"", 1, [], ⟨[[]]⟩⟩ : Graph) :=
    Reachable.delete_vertex 0 r1 rfl
  have r3 : Reachable gDangling := Reachable.add_edge 0 0 r2 rfl
  exact ⟨r3, by decide, by decide, by decide⟩

/-- C8 amended: in every reachable state, every live vertex id is a valid index
into the adjacency list, the adjacency-list size is at least `next_id` (in fact
equal), and every id below `next_id` — deleted ones included — remains a valid
index with some slot; the slot of a deleted id is not always empty (see the
counterexample), only immediately after its deletion. -/
theorem reachable_index_bounds (g : Graph) (h : Reachable g) :
    (∀ v ∈ g.vertices, v.id < g.adjacency_list.vertices.length) ∧
    g.next_id ≤ g.adjacency_list.vertices.length ∧
    (∀ i, i < g.next_id → ∃ l, g.adjacency_list.vertices[i]? = some l) := by
  obtain ⟨h1, h2, _⟩ := reachable_inv h
  refine ⟨?_, Nat.le_of_eq h1, ?_⟩
  · intro v hv
    rw [← h1]
    exact h2 v hv
  · intro i hi
    have hlen : i < g.adjacency_list.vertices.length := h1 ▸ hi
    exact ⟨_, List.getElem?_eq_getElem hlen⟩

/-- Witness for the amended C8 at the concrete reachable state `gDangling`. -/
theorem reachable_index_bounds_witness :
    Reachable gDangling ∧
    ((∀ v ∈ gDangling.vertices, v.id < gDangling.adjacency_list.vertices.length) ∧
      gDangling.next_id ≤ gDangling.adjacency_list.vertices.length ∧
      (∀ i, i < gDangling.next_id →
        ∃ l, gDangling.adjacency_list.vertices[i]? = some l)) := by
  have r1 : Reachable (⟨"", 1, [⟨0, none, none⟩], ⟨[[]]⟩⟩ : Graph) :=
    Reachable.add_vertex Reachable.new rfl
  have r2 : Reachable (⟨"", 1, [], ⟨[[]]⟩⟩ : Graph) :=
    Reachable.delete_vertex 0 r1 rfl
  have r3 : Reachable gDangling := Reachable.add_edge 0 0 r2 rfl
  exact ⟨r3, reachable_index_bounds gDangling r3⟩

/-- C2 counterexample: build a 2-vertex fully connected graph, then delete both
ids 0 and 1.  Before the deletions the edge 0 → 1 (destination 1, about to be
deleted) is stored in slot 0; after the deletions slot 0 is empty, so that
previously stored edge with a deleted destination is NOT retained — its source
was deleted too, and the deletion cleared its whole neighbour sequence. -/
theorem dangling_edge_lost_when_source_deleted :
    ((Graph.new.add_vertices 2).bind Graph.fully_connect).map
        (fun gg => gg.get_adjacent_vertices 0) = some (some [0, 1]) ∧
    ((Graph.new.add_vertices 2).bind Graph.fully_connect).bind
        (fun gg => gg.delete_seq [0, 1]) =
      some (⟨"", 2, [], ⟨[[], []]⟩⟩ : Graph) ∧
    (⟨"", 2, [], ⟨[[], []]⟩⟩ : Graph).get_adjacent_vertices 0 = some [] :=
  ⟨rfl, rfl, rfl⟩

/-- C2 amended: in any reachable graph, deleting a duplicate-free list of k
live ids leaves `count_vertices() = n - k`, each deleted id's adjacency slot
empty, and — for every SURVIVING vertex — its whole neighbour sequence
unchanged, so every previously stored edge whose source survives is retained
even when its destination is a deleted id (dangling-edge retention); edges
whose source is itself deleted are cleared along with the source's slot. -/
theorem delete_k_of_n (g : Graph) (ds : List Nat) (hre : Reachable g)
    (hnd : ds.Nodup) (hlive : ∀ d ∈ ds, ∃ v ∈ g.vertices, v.id = d) :
    ∃ g2, g.delete_seq ds = some g2 ∧
      g2.count_vertices = g.count_vertices - ds.length ∧
      (∀ d ∈ ds, g2.get_adjacent_vertices d = some []) ∧
      (∀ v ∈ g.vertices, v.id ∉ ds →
        v ∈ g2.vertices ∧
        g2.get_adjacent_vertices v.id = g.get_adjacent_vertices v.id) := by
  obtain ⟨h1, h2, h3⟩ := reachable_inv hre
  have hb : ∀ v ∈ g.vertices, v.id < g.adjacency_list.vertices.length := by
    intro v hv
    rw [← h1]
    exact h2 v hv
  obtain ⟨g2, hseq, hcount, _, _, _, hslots, hunch, hmem⟩ :=
    delete_seq_spec hb h3 hnd hlive
  refine ⟨g2, hseq, by omega, ?_, ?_⟩
  · intro d hd
    rw [Graph.get_adjacent_vertices, AdjacencyList.get_adjacent_vertices]
    exact hslots d hd
  · intro v hv hvn
    refine ⟨hmem v hv hvn, ?_⟩
    rw [Graph.get_adjacent_vertices, AdjacencyList.get_adjacent_vertices,
      Graph.get_adjacent_vertices, AdjacencyList.get_adjacent_vertices]
    exact hunch v.id hvn

/-- Witness for the amended C2: delete id 0 from the fully connected 2-vertex
graph. -/
theorem delete_k_of_n_witness :
    Reachable (⟨"", 2, [mkVertex 0, mkVertex 1], ⟨[[0, 1], [0, 1]]⟩⟩ : Graph) ∧
    ([0] : List Nat).Nodup ∧
    (∀ d ∈ ([0] : List Nat),
      ∃ v ∈ (⟨"", 2, [mkVertex 0, mkVertex 1], ⟨[[0, 1], [0, 1]]⟩⟩ : Graph).vertices,
        v.id = d) ∧
    ∃ g2,
      (⟨"", 2, [mkVertex 0, mkVertex 1], ⟨[[0, 1], [0, 1]]⟩⟩ : Graph).delete_seq [0] =
        some g2 ∧
      g2.count_vertices =
        (⟨"", 2, [mkVertex 0, mkVertex 1], ⟨[[0, 1], [0, 1]]⟩⟩ : Graph).count_vertices -
          ([0] : List Nat).length ∧
      (∀ d ∈ ([0] : List Nat), g2.get_adjacent_vertices d = some []) ∧
      (∀ v ∈ (⟨"", 2, [mkVertex 0, mkVertex 1], ⟨[[0, 1], [0, 1]]⟩⟩ : Graph).vertices,
        v.id ∉ ([0] : List Nat) →
        v ∈ g2.vertices ∧
        g2.get_adjacent_vertices v.id =
          (⟨"", 2, [mkVertex 0, mkVertex 1], ⟨[[0, 1], [0, 1]]⟩⟩ : Graph).get_adjacent_vertices
            v.id) := by
  have hre : Reachable (⟨"", 2, [mkVertex 0, mkVertex 1], ⟨[[0, 1], [0, 1]]⟩⟩ : Graph) :=
    Reachable.fully_connect (Reachable.add_vertices 2 Reachable.new rfl) rfl
  exact ⟨hre, by decide, by decide,
    delete_k_of_n _ [0] hre (by decide) (by decide)⟩

/-- C6: starting from any state whose slot `v` is empty (freshly created or
just cleared), a sequence of `add_edge` calls with in-range sources leaves in
`get_adjacent_vertices(v)` exactly the destinations of the `add_edge(v, _)`
calls, in insertion order, duplicates preserved, dangling destinations
included, nothing filtered. -/
theorem adjacency_insertion_order (g : Graph) (l : List (Nat × Nat)) (v : Nat)
    (hsrc : ∀ p ∈ l, p.fst < g.adjacency_list.vertices.length)
    (hv : g.get_adjacent_vertices v = some []) :
    ∃ g2, g.add_edge_seq l = some g2 ∧
      g2.get_adjacent_vertices v =
        some ((l.filter (fun p => p.fst == v)).map Prod.snd) := by
  obtain ⟨g2, hfold, _, _, _, _, hslots⟩ := add_edge_seq_spec hsrc
  refine ⟨g2, hfold, ?_⟩
  rw [Graph.get_adjacent_vertices, AdjacencyList.get_adjacent_vertices] at hv ⊢
  rw [hslots v, hv]
  simp

/-- Witness for C6: insert edges (0,1), (1,0), (0,1), (0,5) into a fresh
2-vertex graph; slot 0 reads back [1, 1, 5] — insertion order, with the
duplicate and the dangling destination 5 kept. -/
theorem adjacency_insertion_order_witness :
    (∀ p ∈ ([(0, 1), (1, 0), (0, 1), (0, 5)] : List (Nat × Nat)),
      p.fst < (mkGraph 2).adjacency_list.vertices.length) ∧
    (mkGraph 2).get_adjacent_vertices 0 = some [] ∧
    ∃ g2, (mkGraph 2).add_edge_seq [(0, 1), (1, 0), (0, 1), (0, 5)] = some g2 ∧
      g2.get_adjacent_vertices 0 =
        some ((([(0, 1), (1, 0), (0, 1), (0, 5)] : List (Nat × Nat)).filter
          (fun p => p.fst == 0)).map Prod.snd) :=
  ⟨by decide, rfl,
    adjacency_insertion_order (mkGraph 2) [(0, 1), (1, 0), (0, 1), (0, 5)] 0
      (by decide) rfl⟩

/-- C9: the four queries, translated as state-passing computations straight
from their read-only method bodies, leave the graph state unchanged, agree
with the pure query functions, and repeated calls with no intervening mutation
return identical results. -/
theorem queries_pure (g : Graph) (i v : Nat) :
    (Graph.count_verticesM.run g).2 = g ∧
    (Graph.count_verticesM.run g).1 = g.count_vertices ∧
    (Graph.count_edgesM.run g).2 = g ∧
    (Graph.count_edgesM.run g).1 = g.count_edges ∧
    ((Graph.get_vertexM i).run g).2 = g ∧
    ((Graph.get_vertexM i).run g).1 = g.get_vertex i ∧
    ((Graph.get_adjacent_verticesM v).run g).2 = g ∧
    ((Graph.get_adjacent_verticesM v).run g).1 = g.get_adjacent_vertices v ∧
    Graph.count_verticesM.run ((Graph.count_verticesM.run g).2) =
      Graph.count_verticesM.run g ∧
    Graph.count_edgesM.run ((Graph.count_edgesM.run g).2) =
      Graph.count_edgesM.run g ∧
    (Graph.get_vertexM i).run (((Graph.get_vertexM i).run g).2) =
      (Graph.get_vertexM i).run g ∧
    (Graph.get_adjacent_verticesM v).run (((Graph.get_adjacent_verticesM v).run g).2) =
      (Graph.get_adjacent_verticesM v).run g :=
  ⟨rfl, rfl, rfl, rfl, rfl, rfl, rfl, rfl, rfl, rfl, rfl, rfl⟩

/-- C10: for every issued id `v < next_id` (with `next_id` matching the
adjacency-list size, as in every state the program builds), running
`delete_vertex(v)` twice in succession produces exactly the same graph state
as running it once. -/
theorem delete_vertex_idempotent (g : Graph) (v : Nat)
    (h1 : v < g.next_id)
    (h2 : g.next_id = g.adjacency_list.vertices.length) :
    (g.delete_vertex v).bind (fun g2 => g2.delete_vertex v) = g.delete_vertex v := by
  have hlt : v < g.adjacency_list.vertices.length := h2 ▸ h1
  rw [delete_vertex_eq_some g v hlt, Option.some_bind,
    delete_vertex_eq_some _ v (by simpa using hlt)]
  simp [List.filter_filter, List.set_set]

/-- Witness for C10 at the concrete one-vertex graph and id 0. -/
theorem delete_vertex_idempotent_witness :
    0 < (mkGraph 1).next_id ∧
    (mkGraph 1).next_id = (mkGraph 1).adjacency_list.vertices.length ∧
    ((mkGraph 1).delete_vertex 0).bind (fun g2 => g2.delete_vertex 0) =
      (mkGraph 1).delete_vertex 0 :=
  ⟨by decide, mkGraph_next_id_len 1,
    delete_vertex_idempotent (mkGraph 1) 0 (by decide) (mkGraph_next_id_len 1)⟩
